import Mathlib

/-!
# Verification of the `pageparser` sanitize-and-rewrite pipeline

Shallow embedding of `src/django/apps/pageparser/helpers.py`:
`absolutize_url`, `reinforce_text`, `schemeful_domain`, `sterilize_page`
(tree level) and `process_page` (tree level), together with the pieces of
the external libraries the module calls into (Python `str` methods,
`re.sub` with `\b`-bounded literal words, Django's `URLValidator`, and the
lxml element-tree operations used by the code).

Strings are modelled as `List Char` in the core text algorithms and as
Lean `String` at the interfaces.  All definitions are executable and
structurally recursive so concrete runs reduce in the kernel.
-/

namespace Pageparser

/-- Model of Python `str.isspace` / `str.split()` whitespace, restricted to
the ASCII whitespace characters (the repository's inputs contain no
non-ASCII whitespace). -/
def isSpacePy (c : Char) : Bool :=
  c == ' ' || c == '\t' || c == '\n' || c == '\r' || c == '\x0b' || c == '\x0c'

/-- Model of Python `str.isalpha` (Unicode-aware in CPython), restricted to
the scripts the repository exercises: ASCII letters and the Cyrillic block. -/
def isAlphaPy (c : Char) : Bool :=
  ('a' ≤ c && c ≤ 'z') || ('A' ≤ c && c ≤ 'Z')
    || (0x400 ≤ c.toNat && c.toNat ≤ 0x4FF)

/-- ASCII decimal digit. -/
def isDigitPy (c : Char) : Bool := '0' ≤ c && c ≤ '9'

/-- Model of the character class `\w` used by `re`'s word boundary `\b`:
letters, digits and underscore. -/
def isWordChar (c : Char) : Bool := isAlphaPy c || isDigitPy c || c == '_'

/-- Helper for Python `str.split()` (split on whitespace runs, drop empty
pieces).  `cur` is the reversed current word. -/
def pysplitAux (cur : List Char) : List Char → List (List Char)
  | [] => if cur.isEmpty then [] else [cur.reverse]
  | c :: rest =>
    if isSpacePy c then
      if cur.isEmpty then pysplitAux [] rest else cur.reverse :: pysplitAux [] rest
    else
      pysplitAux (c :: cur) rest

/-- Python `str.split()` with no arguments. -/
def pysplit (s : List Char) : List (List Char) := pysplitAux [] s

/-- Python `' '.join(words)`. -/
def joinSpace : List (List Char) → List Char
  | [] => []
  | [w] => w
  | w :: ws => w ++ ' ' :: joinSpace ws

/-- Python `' '.join(s.split())`: collapse whitespace runs and trim. -/
def normalizeWs (s : List Char) : List Char := joinSpace (pysplit s)

/-- `\b` on the left of a match: previous character absent or not a word
character. -/
def boundaryL : Option Char → Bool
  | none => true
  | some c => !isWordChar c

/-- `\b` on the right of a match: next character absent or not a word
character. -/
def boundaryR : List Char → Bool
  | [] => true
  | c :: _ => !isWordChar c

/-- Scanner for `re.sub(rf'\b{w}\b', repl, text)` with a literal word `w`:
left-to-right, non-overlapping matches, continuing after each match.
`prev` is the previously scanned character, `skip` the number of already
matched characters still to consume. -/
def subAux (w repl : List Char) : Option Char → Nat → List Char → List Char
  | _, _, [] => []
  | _, Nat.succ n, c :: rest => subAux w repl (some c) n rest
  | prev, 0, c :: rest =>
    if !w.isEmpty && boundaryL prev && w.isPrefixOf (c :: rest)
        && boundaryR (List.drop w.length (c :: rest)) then
      repl ++ subAux w repl (some c) (w.length - 1) rest
    else
      c :: subAux w repl (some c) 0 rest

/-- The replacement string `f'<strong>{word}</strong>'`. -/
def strongWrap (w : List Char) : List Char :=
  ("<strong>".data) ++ w ++ ("</strong>".data)

/-- `re.sub(rf'\b{w}\b', f'<strong>{w}</strong>', text)` for an alphabetic
word `w`. -/
def subWord (w text : List Char) : List Char :=
  subAux w (strongWrap w) none 0 text

/-- The alphabetic tokens of `text`:
`''.join((char if char.isalpha() else ' ') for char in text).split()`. -/
def tokensOf (text : List Char) : List (List Char) :=
  pysplit (text.map (fun c => if isAlphaPy c then c else ' '))

/-- First-occurrence deduplication; models the element set of the Python
`set` built from `tokensOf`. -/
def dedupKF : List (List Char) → List (List Char)
  | [] => []
  | w :: ws => w :: (dedupKF ws).filter (fun v => v ≠ w)

/-- The distinct alphabetic tokens of `text` (the Python `set`, listed in
first-occurrence order; CPython iterates this set in an unspecified
order). -/
def tokenSet (text : List Char) : List (List Char) := dedupKF (tokensOf text)

/-- The loop body of `reinforce_text`: words longer than four characters
are substituted, others leave the text unchanged. -/
def reinforceStep (t w : List Char) : List Char :=
  if 4 < w.length then subWord w t else t

/-- `reinforce_text`, parameterised by the order in which the word set is
iterated (CPython's `set` iteration order is unspecified). -/
def reinforceWith (order : List (List Char)) (text : List Char) : List Char :=
  normalizeWs (order.foldl reinforceStep text) ++ [' ']

/-- `reinforce_text` from `helpers.py`, fixing the set iteration order to
first-occurrence order.  Theorems about order sensitivity quantify over
permutations of `tokenSet`. -/
def reinforceL (text : List Char) : List Char :=
  reinforceWith (tokenSet text) text

/-- `reinforce_text` on Lean strings. -/
def reinforce_text (s : String) : String := ⟨reinforceL s.data⟩

example : reinforce_text "The quick brown fox jumps over the lazy dog." =
    "The <strong>quick</strong> <strong>brown</strong> fox <strong>jumps</strong> over the lazy dog. " := by
  decide

example : reinforce_text "" = " " := by decide

/-! ## `absolutize_url` and `schemeful_domain` -/

/-- Python `s.startswith(p)` (character-based). -/
def pyStartsWith (s p : String) : Bool := p.data.isPrefixOf s.data

/-- Python `s.endswith(p)` (character-based). -/
def pyEndsWith (s p : String) : Bool := p.data.isSuffixOf s.data

/-- Python `s[1:]`: drop the first character. -/
def pyDrop1 (s : String) : String := String.mk (s.data.drop 1)

/-- `absolutize_url` from `helpers.py`.  The Python function has no `else`
branch: when neither string carries a slash at the junction it falls off
the end and returns `None`, modelled as `none`. -/
def absolutize_url (address path : String) : Option String :=
  if (pyEndsWith address "/") ^^ (pyStartsWith path "/") then
    some (address ++ path)
  else if pyEndsWith address "/" && pyStartsWith path "/" then
    some (address ++ pyDrop1 path)
  else
    none

/-- Python `value.split("://")` at the first occurrence: the part before
the first `"://"` and the part after it, or `none` when `"://"` does not
occur. -/
def schemeSplit : List Char → Option (List Char × List Char)
  | [] => none
  | ':' :: '/' :: '/' :: r => some ([], r)
  | c :: rest => (schemeSplit rest).map (fun p => (c :: p.1, p.2))

/-- `schemeful_domain` from `helpers.py`, embedding the behaviour of
`urllib.parse.urlparse` restricted to inputs that contain `"://"` (the
caller's form validation guarantees an absolute http/https URL): the
scheme is everything before the first `"://"` and the netloc runs to the
first `/`, `?` or `#`.  Inputs without `"://"` parse to empty scheme and
netloc, giving `":///"`. -/
def schemeful_domain (target_url : String) : String :=
  match schemeSplit target_url.data with
  | some (sch, rest) =>
    let netloc := rest.takeWhile (fun c => c ≠ '/' && c ≠ '?' && c ≠ '#')
    String.mk sch ++ "://" ++ String.mk netloc ++ "/"
  | none => ":///"

example : schemeful_domain "https://google.com/chrome/browser/desktop/index.html" =
    "https://google.com/" := by decide
example : schemeful_domain "http://127.0.0.1/admin/" = "http://127.0.0.1/" := by decide

/-! ## Django's `URLValidator`

`helpers.py` instantiates `django.core.validators.URLValidator()` with its
defaults.  The validator first requires the text before the first `"://"`
to be one of the default schemes `http`, `https`, `ftp`, `ftps`
(lower-cased), then matches the whole value against a regular expression
`scheme://host(:port)?(path)?` where the host is an IPv4 address,
`localhost`, or a dotted hostname whose final label is a letters-only
top-level label.  The embedding below reproduces that acceptance function
restricted to hosts without userinfo and without bracketed IPv6 literals
(no input in this development uses either). -/

/-- The default `URLValidator.schemes`. -/
def djangoSchemes : List String := ["http", "https", "ftp", "ftps"]

/-- A letter as accepted in Django hostname labels: ASCII letters plus the
`¡-￿` range the validator's character class names. -/
def isHostAl (c : Char) : Bool :=
  ('a' ≤ c && c ≤ 'z') || ('A' ≤ c && c ≤ 'Z')
    || (0xa1 ≤ c.toNat && c.toNat ≤ 0xffff)

/-- Letter or ASCII digit. -/
def isHostAlnum (c : Char) : Bool := isHostAl c || isDigitPy c

/-- Split on `'.'`, keeping empty pieces (unlike `pysplit`). -/
def splitDotsAux (cur : List Char) : List Char → List (List Char)
  | [] => [cur.reverse]
  | '.' :: r => cur.reverse :: splitDotsAux [] r
  | c :: r => splitDotsAux (c :: cur) r

/-- Split a host on dots. -/
def splitDots (s : List Char) : List (List Char) := splitDotsAux [] s

/-- First hostname label: `[alnum]([alnum-]{0,61}[alnum])?`. -/
def labelOk : List Char → Bool
  | [] => false
  | c :: rest =>
    isHostAlnum c && rest.length ≤ 62 &&
      (match rest.getLast? with
       | none => true
       | some d => isHostAlnum d) &&
      rest.dropLast.all (fun x => isHostAlnum x || x == '-')

/-- Middle domain label: `(?!-)[alnum-]{1,63}(?<!-)`. -/
def midLabelOk (l : List Char) : Bool :=
  !l.isEmpty && l.length ≤ 63 && l.all (fun x => isHostAlnum x || x == '-')
    && !(l.head? == some '-') && !(l.getLast? == some '-')

/-- Top-level label: `(?!-)(?:[letters-]{2,63}|xn--[a-z0-9]{1,59})(?<!-)`. -/
def tldOk (l : List Char) : Bool :=
  (2 ≤ l.length && l.length ≤ 63 && l.all (fun x => isHostAl x || x == '-')
      && !(l.head? == some '-') && !(l.getLast? == some '-'))
  || (match l with
      | 'x' :: 'n' :: '-' :: '-' :: rest =>
        !rest.isEmpty && rest.length ≤ 59
          && rest.all (fun x => ('a' ≤ x && x ≤ 'z') || isDigitPy x)
      | _ => false)

/-- Numeric value of a digit string. -/
def digitsVal (l : List Char) : Nat :=
  l.foldl (fun n c => 10 * n + (c.toNat - '0'.toNat)) 0

/-- One IPv4 octet as matched by the validator (1–3 digits, value ≤ 255,
leading zeros allowed). -/
def ipv4PartOk (l : List Char) : Bool :=
  !l.isEmpty && l.length ≤ 3 && l.all isDigitPy && digitsVal l ≤ 255

/-- Dotted-quad IPv4 host. -/
def ipv4Ok (h : List Char) : Bool :=
  match splitDots h with
  | [a, b, c, d] => ipv4PartOk a && ipv4PartOk b && ipv4PartOk c && ipv4PartOk d
  | _ => false

/-- Middle labels followed by the top-level label. -/
def midTldOk : List (List Char) → Bool
  | [] => false
  | [t] => tldOk t
  | m :: rest => midLabelOk m && midTldOk rest

/-- Check the dot-separated labels of a hostname: a first label, optional
middle labels, and a final top-level label (so a bare single label such as
`example` is rejected). -/
def hostPartsOk : List (List Char) → Bool
  | [] => false
  | [_] => false
  | [l, t] => labelOk l && tldOk t
  | l :: rest => labelOk l && midTldOk rest

/-- Dotted hostname with an optional single trailing dot. -/
def hostnameOk (h : List Char) : Bool :=
  let ps := splitDots h
  let ps := match ps.getLast? with
            | some [] => ps.dropLast
            | _ => ps
  hostPartsOk ps

/-- A host accepted by the validator. -/
def hostOk (h : List Char) : Bool :=
  h == "localhost".data || ipv4Ok h || hostnameOk h

/-- Optional path: `(?:[/?#][^\s]*)?` anchored to the end. -/
def pathOk : List Char → Bool
  | [] => true
  | c :: rest => (c == '/' || c == '?' || c == '#') && rest.all (fun x => !isSpacePy x)

/-- Optional port `(?::\d{2,5})?` followed by the optional path. -/
def portPathOk : List Char → Bool
  | [] => true
  | ':' :: rest =>
    let ds := rest.takeWhile isDigitPy
    2 ≤ ds.length && ds.length ≤ 5 && pathOk (rest.drop ds.length)
  | r => pathOk r

/-- The host portion of the text after `"://"`: everything up to the first
`:`, `/`, `?` or `#`. -/
def hostPart (rest : List Char) : List Char :=
  rest.takeWhile (fun c => c ≠ ':' && c ≠ '/' && c ≠ '?' && c ≠ '#')

/-- Acceptance function of `URLValidator()` with Django's defaults (the
call raises `ValidationError` exactly when this returns `false`). -/
def urlValidatorOk (value : String) : Bool :=
  match schemeSplit value.data with
  | none => false
  | some (sch, rest) =>
    djangoSchemes.contains (String.mk (sch.map Char.toLower))
      && hostOk (hostPart rest)
      && portPathOk (rest.drop (hostPart rest).length)

example : urlValidatorOk "https://google.com/True" = true := by decide
example : urlValidatorOk "https://google.com/#" = true := by decide
example : urlValidatorOk "ftp://example.com/file" = true := by decide
example : urlValidatorOk "#" = false := by decide
example : urlValidatorOk "" = false := by decide
example : urlValidatorOk "/chrome/browser/desktop/index.html" = false := by decide
example : urlValidatorOk "google.com" = false := by decide
example : urlValidatorOk "javascript://x" = false := by decide
example : urlValidatorOk "http://127.0.0.1/admin/" = true := by decide

/-! ## The element tree

lxml element: tag, attributes (in document order), direct text, tail text
and children.  As in lxml, the tail text is owned by the node itself, so
`remove()` on a parent takes the node's tail out of the tree with it. -/

inductive Elem where
  | mk (tag : String) (attrs : List (String × String)) (text : Option String)
       (tail : Option String) (children : List Elem)

/-- Truthiness of `t and t.strip()` in Python: the slot holds a string
with at least one non-whitespace character. -/
def textNonWs : Option String → Bool
  | none => false
  | some s => !s.isEmpty && s.data.any (fun c => !isSpacePy c)

/-- In-place update `el.attrib[k] = v` for a key already present: the
value changes, the attribute order does not. -/
def setAttr (k v : String) (attrs : List (String × String)) : List (String × String) :=
  attrs.map (fun p => if p.1 = k then (k, v) else p)

mutual
/-- The anchor fix-up loop of `process_page` (lines 95–120 of
`helpers.py`) applied to one subtree.  Returns the list of elements that
replace the node in its parent's child list: `[]` when the node is an
anchor without visible text (lxml `remove()` drops the node together with
its tail), a singleton otherwise.  A textual anchor without an `href`
attribute raises `KeyError` (uncaught: only `ValidationError` is
handled), modelled as `Except.error`. -/
def anchorElem (turl : String) : Elem → Except Unit (List Elem)
  | .mk tag attrs text tail children => do
    let cs ← anchorList turl children
    if tag = "a" then
      if textNonWs text then
        let emChild : Elem := .mk "em" [] text none []
        match attrs.lookup "href" with
        | none => throw ()
        | some href =>
          if urlValidatorOk href then
            pure [.mk "a" attrs none tail (emChild :: cs)]
          else
            match absolutize_url (schemeful_domain turl) href with
            | none => throw ()
            | some newHref =>
              pure [.mk "a" (setAttr "href" newHref attrs) none tail (emChild :: cs)]
      else
        pure []
    else
      pure [.mk tag attrs text tail cs]

/-- `anchorElem` over a child list, splicing the results. -/
def anchorList (turl : String) : List Elem → Except Unit (List Elem)
  | [] => pure []
  | e :: es => do
    let r ← anchorElem turl e
    let rs ← anchorList turl es
    pure (r ++ rs)
end

/-- The anchor pass over the whole tree.  `root.xpath(".//a")` selects
proper descendants only, so the root element itself is never treated as an
anchor. -/
def anchorRoot (turl : String) : Elem → Except Unit Elem
  | .mk tag attrs text tail children => do
    let cs ← anchorList turl children
    pure (.mk tag attrs text tail cs)

/-- One text slot of the emphasis loop (lines 124–130): rewritten only
when it holds non-whitespace text. -/
def reinforceOpt (t : Option String) : Option String :=
  if textNonWs t then some (reinforce_text (t.getD "")) else t

mutual
/-- The emphasis pass: `root.iter()` visits every node (the root
included) and rewrites its direct text and tail text. -/
def reinforceElem : Elem → Elem
  | .mk tag attrs text tail children =>
    .mk tag attrs (reinforceOpt text) (reinforceOpt tail) (reinforceList children)

/-- `reinforceElem` over a child list. -/
def reinforceList : List Elem → List Elem
  | [] => []
  | e :: es => reinforceElem e :: reinforceList es
end

/-- Serialization of an attribute list as ` key="value"`. -/
def serializeAttrs : List (String × String) → String
  | [] => ""
  | (k, v) :: rest => " " ++ k ++ "=\"" ++ v ++ "\"" ++ serializeAttrs rest

mutual
/-- `unescape(etree.tostring(root, method='html').decode())`: the
serializer escapes the `<`/`>` of markup stored inside text and
`unescape` reverses exactly that escaping, so the composition emits text
verbatim; the tags appearing in this pipeline are not HTML void elements
and serialize with open and close tags. -/
def serializeElem : Elem → String
  | .mk tag attrs text tail children =>
    "<" ++ tag ++ serializeAttrs attrs ++ ">" ++ text.getD ""
      ++ serializeList children ++ "</" ++ tag ++ ">" ++ tail.getD ""

/-- Serialization of a forest. -/
def serializeList : List Elem → String
  | [] => ""
  | e :: es => serializeElem e ++ serializeList es
end

/-- `process_page` from `helpers.py`, taking the already parsed element
tree (`etree.fromstring` is the external parser): anchor fix-up pass, then
emphasis pass, then serialization. -/
def process_page (root : Elem) (target_url : String) : Except Unit String := do
  let r1 ← anchorRoot target_url root
  pure (serializeElem (reinforceElem r1))

mutual
/-- Concatenated text content of a subtree in document order (direct
text, then each child with its tail, then the node's own tail). -/
def textContentE : Elem → List Char
  | .mk _ _ text tail children =>
    (text.getD "").data ++ textContentL children ++ (tail.getD "").data

/-- Concatenated text content of a forest. -/
def textContentL : List Elem → List Char
  | [] => []
  | e :: es => textContentE e ++ textContentL es
end

/-! ## Sanity checks against the repository's own test suite -/

example : process_page
    (.mk "div" [] (some "Sadly, but ") none
      [.mk "a" [("href", "https://google.com/True")] (some "True") (some " ") []])
    "https://google.com/"
    = .ok "<div><strong>Sadly</strong>, but <a href=\"https://google.com/True\"><em>True </em></a> </div>" := rfl

example : process_page
    (.mk "div" [] (some "A link: ") none
      [.mk "a" [("href", "")] none (some " ") []])
    "https://google.com/"
    = .ok "<div>A link: </div>" := rfl

example : process_page
    (.mk "div" [] (some "A link: ") none
      [.mk "a" [("href", "/chrome/browser/desktop/index.html")] (some "Link ") (some " ") []])
    "https://google.com/"
    = .ok "<div>A link: <a href=\"https://google.com/chrome/browser/desktop/index.html\"><em>Link </em></a> </div>" := rfl

example : process_page
    (.mk "div" [] none none
      [.mk "a" [("href", "#")] (some "Somewhere") (some " over the rainbow") []])
    "https://google.com/"
    = .ok "<div><a href=\"https://google.com/#\"><em><strong>Somewhere</strong> </em></a>over the <strong>rainbow</strong> </div>" := rfl

/-! ## Claim theorems -/

/-- C6: `absolutize_url` concatenates directly when exactly one of the two
slashes is present, drops the leading slash of `path` when both are
present, and returns no result (but does not crash: it is total and
yields `none`) when neither is; the three concrete examples evaluate as
stated. -/
theorem absolutize_url_contract (address path : String) :
    (((pyEndsWith address "/") ^^ (pyStartsWith path "/")) = true →
      absolutize_url address path = some (address ++ path))
    ∧ (pyEndsWith address "/" = true → pyStartsWith path "/" = true →
      absolutize_url address path = some (address ++ pyDrop1 path))
    ∧ (pyEndsWith address "/" = false → pyStartsWith path "/" = false →
      absolutize_url address path = none)
    ∧ absolutize_url "https://google.com/" "chrome/browser/desktop/index.html"
        = some "https://google.com/chrome/browser/desktop/index.html"
    ∧ absolutize_url "https://github.com" "/Spacehug" = some "https://github.com/Spacehug"
    ∧ absolutize_url "https://vk.com/" "/id1" = some "https://vk.com/id1" := by
  refine ⟨?_, ?_, ?_, by decide, by decide, by decide⟩
  · intro h
    simp [absolutize_url, h]
  · intro h1 h2
    simp [absolutize_url, h1, h2]
  · intro h1 h2
    simp [absolutize_url, h1, h2]

/-- Witness for `absolutize_url_contract` at concrete inputs. -/
theorem absolutize_url_contract_witness :
    absolutize_url "https://example.com/" "page.html" = some "https://example.com/page.html" :=
  (absolutize_url_contract "https://example.com/" "page.html").1 (by decide)

/-- C2 (failing run): `reinforce_text` iterates the Python `set`
`{"quick", "strong"}` of distinct tokens of `"quick strong"` in an
unspecified order; under the admissible order that processes `"quick"`
first, the later substitution for `"strong"` also rewrites the word
`strong` inside the markup inserted for `"quick"`, corrupting it, while
the opposite order produces the exact wrapping the specification
describes. -/
theorem reinforce_order_corrupts_markup :
    tokenSet ("quick strong".data) = ["quick".data, "strong".data]
    ∧ reinforceWith ["quick".data, "strong".data] ("quick strong".data)
        = ("<<strong>strong</strong>>quick</<strong>strong</strong>> <strong>strong</strong> ").data
    ∧ reinforceWith ["strong".data, "quick".data] ("quick strong".data)
        = ("<strong>quick</strong> <strong>strong</strong> ").data := by
  refine ⟨by decide, by decide, by decide⟩

/-- C9 (failing run): the output of `reinforce_text` depends on the order
in which the token set is iterated: the two admissible iteration orders of
the set `{"quick", "strong"}` (each a permutation of the other) give
different outputs, so the pipeline is not deterministic across runs with
different set iteration orders. -/
theorem reinforce_not_order_independent :
    (["strong".data, "quick".data] : List (List Char)).Perm (tokenSet ("quick strong".data))
    ∧ ["strong".data, "quick".data] = (tokenSet ("quick strong".data)).reverse
    ∧ reinforceWith (tokenSet ("quick strong".data)) ("quick strong".data)
        ≠ reinforceWith ((tokenSet ("quick strong".data)).reverse) ("quick strong".data) := by
  refine ⟨by decide, by decide, by decide⟩

/-- Reduction of the `Except` monad's bind on a known error. -/
@[simp] theorem except_bind_error {α β : Type} (e : Unit) (f : α → Except Unit β) :
    (Except.error e >>= f) = Except.error () := by
  cases e
  rfl

/-- Reduction of the `Except` monad's bind on a known success. -/
@[simp] theorem except_bind_ok {α β : Type} (a : α) (f : α → Except Unit β) :
    (Except.ok a >>= f) = f a := rfl

/-- If one element of a child list maps to an error under the anchor pass,
the whole list does. -/
theorem anchorList_error_of_mem (turl : String) (x : Elem)
    (hx : anchorElem turl x = .error ()) :
    ∀ pre post : List Elem, anchorList turl (pre ++ x :: post) = .error () := by
  intro pre
  induction pre with
  | nil =>
    intro post
    simp [anchorList, hx, Except.bind]
  | cons e es ih =>
    intro post
    show anchorList turl (e :: (es ++ x :: post)) = .error ()
    cases h : anchorElem turl e with
    | error err =>
      cases err
      simp [anchorList, h, Except.bind]
    | ok r =>
      simp [anchorList, h, Except.bind, ih post]

/-- C10: a textual anchor without an `href` attribute makes the anchor
pass fail with an error (the `attrib['href']` lookup is guarded only
against `ValidationError`, not `KeyError`), and hence any `process_page`
call on a tree containing such an anchor as a child of the root fails
rather than skipping or absolutizing it. -/
theorem process_errors_on_missing_href (turl : String) (attrs : List (String × String))
    (text tail : Option String) (cs : List Elem)
    (htext : textNonWs text = true) (hhref : attrs.lookup "href" = none) :
    anchorElem turl (.mk "a" attrs text tail cs) = .error ()
    ∧ ∀ (rtag : String) (rattrs : List (String × String)) (rtext rtail : Option String)
        (pre post : List Elem),
        process_page (.mk rtag rattrs rtext rtail (pre ++ .mk "a" attrs text tail cs :: post)) turl
          = .error () := by
  have hmain : anchorElem turl (.mk "a" attrs text tail cs) = .error () := by
    cases h : anchorList turl cs with
    | error err =>
      cases err
      simp [anchorElem, h, Except.bind]
    | ok cs' =>
      simp [anchorElem, h, Except.bind, htext, hhref, throw, throwThe, MonadExceptOf.throw]
  refine ⟨hmain, ?_⟩
  intro rtag rattrs rtext rtail pre post
  have hlist := anchorList_error_of_mem turl _ hmain pre post
  simp [process_page, anchorRoot, hlist, Except.bind]

/-- Witness for `process_errors_on_missing_href`: an anchor with text but
no attributes at all (as the sanitizer may produce, since it keeps
anchors even without `href`) makes the pipeline fail. -/
theorem process_errors_on_missing_href_witness :
    process_page (.mk "div" [] none none [.mk "a" [] (some "Hello") none []])
      "https://google.com/" = .error () :=
  (process_errors_on_missing_href "https://google.com/" [] (some "Hello") none []
    (by decide) (by decide)).2 "div" [] none none [] []

/-- C4: an anchor whose direct text is non-empty after trimming receives
an `em` node holding its former direct text as its new first child, its
own direct text is cleared and any previously existing children are
preserved after the `em`; the href is left alone when the validator
accepts it and absolutized against the target's schemeful root otherwise;
and the spec's concrete example evaluates as stated. -/
theorem anchor_text_wrapped_in_em (turl : String) (attrs : List (String × String))
    (t : String) (tail : Option String) (cs cs' : List Elem) (href : String)
    (htext : textNonWs (some t) = true)
    (hhref : attrs.lookup "href" = some href)
    (hcs : anchorList turl cs = .ok cs') :
    (urlValidatorOk href = true →
      anchorElem turl (.mk "a" attrs (some t) tail cs)
        = .ok [.mk "a" attrs none tail (.mk "em" [] (some t) none [] :: cs')])
    ∧ (∀ newHref : String, urlValidatorOk href = false →
      absolutize_url (schemeful_domain turl) href = some newHref →
      anchorElem turl (.mk "a" attrs (some t) tail cs)
        = .ok [.mk "a" (setAttr "href" newHref attrs) none tail
            (.mk "em" [] (some t) none [] :: cs')])
    ∧ process_page
        (.mk "div" [] (some "A link: ") none
          [.mk "a" [("href", "/chrome/browser/desktop/index.html")] (some "Link ") (some " ") []])
        "https://google.com/"
      = .ok "<div>A link: <a href=\"https://google.com/chrome/browser/desktop/index.html\"><em>Link </em></a> </div>" := by
  refine ⟨?_, ?_, rfl⟩
  · intro hvalid
    simp [anchorElem, hcs, htext, hhref, hvalid]
  · intro newHref hinvalid habs
    simp [anchorElem, hcs, htext, hhref, hinvalid, habs]

/-- Witness for `anchor_text_wrapped_in_em` at a concrete anchor. -/
theorem anchor_text_wrapped_in_em_witness :
    anchorElem "https://google.com/"
        (.mk "a" [("href", "https://google.com/True")] (some "True") (some " ") [])
      = .ok [.mk "a" [("href", "https://google.com/True")] none (some " ")
          [.mk "em" [] (some "True") none []]] :=
  (anchor_text_wrapped_in_em "https://google.com/" [("href", "https://google.com/True")]
    "True" (some " ") [] [] "https://google.com/True"
    (by decide) (by decide) rfl).1 (by decide)

/-- C5: the spec's tail-text example evaluates as stated: the anchor's
tail survives the anchor fix-up and is emphasized on its own, while the
text moved into the freshly created `em` is emphasized as that node's
direct text in the same pass, producing a `<strong>` nested inside the
`<em>`; and in general the emphasis pass rewrites an anchor's tail text
and its `em` child's direct text independently of one another. -/
theorem tail_text_emphasized_independently :
    (process_page
      (.mk "div" [] none none
        [.mk "a" [("href", "#")] (some "Somewhere") (some " over the rainbow") []])
      "https://google.com/"
      = .ok "<div><a href=\"https://google.com/#\"><em><strong>Somewhere</strong> </em></a>over the <strong>rainbow</strong> </div>")
    ∧ ∀ (attrs : List (String × String)) (t u : String),
        textNonWs (some t) = true → textNonWs (some u) = true →
        reinforceElem (.mk "a" attrs none (some u) [.mk "em" [] (some t) none []])
          = .mk "a" attrs none (some (reinforce_text u))
              [.mk "em" [] (some (reinforce_text t)) none []] := by
  refine ⟨rfl, ?_⟩
  intro attrs t u ht hu
  simp [reinforceElem, reinforceList, reinforceOpt, ht, hu,
    show textNonWs none = false from rfl]

/-- Witness for `tail_text_emphasized_independently` at concrete text. -/
theorem tail_text_emphasized_independently_witness :
    reinforceElem (.mk "a" [("href", "#")] none (some " over the rainbow")
        [.mk "em" [] (some "Somewhere") none []])
      = .mk "a" [("href", "#")] none (some "over the <strong>rainbow</strong> ")
          [.mk "em" [] (some "<strong>Somewhere</strong> ") none []] := by
  have h := (tail_text_emphasized_independently).2 [("href", "#")] "Somewhere"
    " over the rainbow" (by decide) (by decide)
  rw [h]
  rfl

/-- C1 (counterexample): the anchor pass removes an anchor with no direct
text together with its tail text — `remove()` in lxml takes the tail out
of the tree with the node — so the concatenated text content of the tree
changes, contradicting the claimed reattachment. -/
theorem anchor_removal_drops_tail_cex :
    anchorRoot "https://google.com/"
        (.mk "div" [] (some "Keep ") none [.mk "a" [("href", "#")] none (some "Tail") []])
      = .ok (.mk "div" [] (some "Keep ") none [])
    ∧ textContentE
        (.mk "div" [] (some "Keep ") none [.mk "a" [("href", "#")] none (some "Tail") []])
        = ("Keep Tail").data
    ∧ textContentE (.mk "div" [] (some "Keep ") none []) = ("Keep ").data
    ∧ process_page
        (.mk "div" [] (some "Keep ") none [.mk "a" [("href", "#")] none (some "Tail") []])
        "https://google.com/" = .ok "<div>Keep </div>"
    ∧ ("Keep ").data ≠ ("Keep Tail").data :=
  ⟨rfl, rfl, rfl, rfl, by decide⟩

/-- The anchor pass distributes over list concatenation. -/
theorem anchorList_append (turl : String) (l1 l2 : List Elem) :
    anchorList turl (l1 ++ l2) = (do
      let a ← anchorList turl l1
      let b ← anchorList turl l2
      pure (a ++ b)) := by
  induction l1 with
  | nil =>
    cases h : anchorList turl l2 with
    | error err => cases err; simp [anchorList, h]
    | ok b => simp [anchorList, h]
  | cons e es ih =>
    show anchorList turl (e :: (es ++ l2)) = _
    cases he : anchorElem turl e with
    | error err => cases err; simp [anchorList, he]
    | ok r =>
      cases hes : anchorList turl es with
      | error err =>
        cases err
        simp [anchorList, he, hes, ih]
      | ok res =>
        cases h2 : anchorList turl l2 with
        | error err => cases err; simp [anchorList, he, hes, ih, h2]
        | ok b => simp [anchorList, he, hes, ih, h2, List.append_assoc]

/-- C1 (amended): an anchor whose direct text is empty or whitespace-only
is deleted from the tree together with its tail text: its replacement in
the parent's child list is the empty list, so the tail text is discarded
rather than re-attached, and the surrounding siblings are unaffected. -/
theorem anchor_removal_discards_tail (turl : String) (attrs : List (String × String))
    (text tail : Option String) (cs cs' : List Elem)
    (htext : textNonWs text = false)
    (hcs : anchorList turl cs = .ok cs') :
    anchorElem turl (.mk "a" attrs text tail cs) = .ok []
    ∧ ∀ (pre post pre' post' : List Elem),
        anchorList turl pre = .ok pre' → anchorList turl post = .ok post' →
        anchorList turl (pre ++ .mk "a" attrs text tail cs :: post) = .ok (pre' ++ post') := by
  have hmain : anchorElem turl (.mk "a" attrs text tail cs) = .ok [] := by
    simp [anchorElem, hcs, htext]
  refine ⟨hmain, ?_⟩
  intro pre post pre' post' hpre hpost
  have h := anchorList_append turl pre (Elem.mk "a" attrs text tail cs :: post)
  rw [h, hpre]
  simp [anchorList, hmain, hpost]

/-- Witness for `anchor_removal_discards_tail` at a concrete anchor. -/
theorem anchor_removal_discards_tail_witness :
    anchorList "https://google.com/"
        [.mk "b" [] (some "x") none [],
         .mk "a" [("href", "#")] none (some "Tail") [],
         .mk "b" [] (some "y") none []]
      = .ok [.mk "b" [] (some "x") none [], .mk "b" [] (some "y") none []] :=
  (anchor_removal_discards_tail "https://google.com/" [("href", "#")] none (some "Tail")
      [] [] (by decide) rfl).2
    [.mk "b" [] (some "x") none []] [.mk "b" [] (some "y") none []]
    [.mk "b" [] (some "x") none []] [.mk "b" [] (some "y") none []] rfl rfl

/-- C3 (counterexample): the validator instantiated by `process_page` is
Django's `URLValidator()` with its default scheme list, which also
accepts `ftp` and `ftps`; an `ftp://` href therefore passes validation
and is left untouched instead of being replaced by an absolutized URL. -/
theorem ftp_href_accepted_cex :
    urlValidatorOk "ftp://example.com/file" = true
    ∧ (schemeSplit ("ftp://example.com/file").data).map Prod.fst = some ("ftp".data)
    ∧ anchorElem "https://google.com/"
        (.mk "a" [("href", "ftp://example.com/file")] (some "File") none [])
      = .ok [.mk "a" [("href", "ftp://example.com/file")] none none
          [.mk "em" [] (some "File") none []]] :=
  ⟨by decide, by decide, rfl⟩

/-- `schemeSplit` decomposes its input at the first `"://"`. -/
theorem schemeSplit_decomp (l : List Char) :
    ∀ a b : List Char, schemeSplit l = some (a, b) → l = a ++ ':' :: '/' :: '/' :: b := by
  induction l using schemeSplit.induct with
  | case1 =>
    intro a b h
    simp [schemeSplit] at h
  | case2 r =>
    intro a b h
    simp [schemeSplit] at h
    obtain ⟨rfl, rfl⟩ := h
    rfl
  | case3 c rest hne ih =>
    intro a b h
    rw [schemeSplit.eq_3 c rest hne] at h
    cases hr : schemeSplit rest with
    | none => rw [hr] at h; simp at h
    | some p =>
      obtain ⟨a', b'⟩ := p
      rw [hr] at h
      simp only [Option.map_some', Option.some.injEq, Prod.mk.injEq] at h
      obtain ⟨h1, h2⟩ := h
      subst h1
      subst h2
      have hrest := ih a' b' hr
      rw [hrest]
      rfl

/-- No empty host is accepted. -/
theorem hostOk_nil : hostOk [] = false := by decide

/-- C3 (amended): the acceptance function of the validator used by
`process_page` holds exactly on values that decompose as
`scheme ++ "://" ++ rest` with the lower-cased scheme among Django's
default schemes `http`, `https`, `ftp`, `ftps` and a non-empty (valid)
host; values without `"://"` — relative paths, fragments, malformed
strings — are always rejected; and every textual anchor whose href the
validator rejects has that href replaced by
`absolutize_url (schemeful_domain targetUrl) href`. -/
theorem urlValidator_schemes_and_wiring :
    (∀ v : String, urlValidatorOk v = true →
      ∃ sch rest : List Char,
        v.data = sch ++ ':' :: '/' :: '/' :: rest
        ∧ String.mk (sch.map Char.toLower) ∈ djangoSchemes
        ∧ hostPart rest ≠ [])
    ∧ (∀ v : String, schemeSplit v.data = none → urlValidatorOk v = false)
    ∧ (∀ (turl href : String) (attrs : List (String × String)) (t : String)
        (tail : Option String) (cs cs' : List Elem) (newHref : String),
        textNonWs (some t) = true →
        attrs.lookup "href" = some href →
        anchorList turl cs = .ok cs' →
        urlValidatorOk href = false →
        absolutize_url (schemeful_domain turl) href = some newHref →
        anchorElem turl (.mk "a" attrs (some t) tail cs)
          = .ok [.mk "a" (setAttr "href" newHref attrs) none tail
              (.mk "em" [] (some t) none [] :: cs')]) := by
  refine ⟨?_, ?_, ?_⟩
  · intro v hv
    unfold urlValidatorOk at hv
    cases h : schemeSplit v.data with
    | none =>
      rw [h] at hv
      exact absurd hv (by simp)
    | some p =>
      obtain ⟨sch, rest⟩ := p
      rw [h] at hv
      simp only [Bool.and_eq_true] at hv
      refine ⟨sch, rest, schemeSplit_decomp v.data sch rest h,
        List.mem_of_elem_eq_true hv.1.1, ?_⟩
      intro hnil
      have hhost := hv.1.2
      rw [hnil] at hhost
      rw [hostOk_nil] at hhost
      exact Bool.false_ne_true hhost
  · intro v h
    unfold urlValidatorOk
    rw [h]
  · intro turl href attrs t tail cs cs' newHref ht hh hcs hbad habs
    simp [anchorElem, hcs, ht, hh, hbad, habs]

/-- Witness for `urlValidator_schemes_and_wiring`: the anchor from the
spec's tail example has its fragment href `"#"` rejected and replaced by
the absolutized URL. -/
theorem urlValidator_schemes_and_wiring_witness :
    anchorElem "https://google.com/" (.mk "a" [("href", "#")] (some "Somewhere") none [])
      = .ok [.mk "a" [("href", "https://google.com/#")] none none
          [.mk "em" [] (some "Somewhere") none []]] := by
  have h := urlValidator_schemes_and_wiring.2.2 "https://google.com/" "#"
    [("href", "#")] "Somewhere" none [] [] "https://google.com/#"
    (by decide) (by decide) rfl (by decide) (by decide)
  rw [h]
  rfl

/-! ## Whitespace normalization (C8) -/

/-- No two adjacent characters are both whitespace. -/
def noDoubleWs : List Char → Bool
  | [] => true
  | [_] => true
  | a :: b :: r => !(isSpacePy a && isSpacePy b) && noDoubleWs (b :: r)

/-- The words produced by `pysplitAux` are non-empty and free of
whitespace characters. -/
theorem pysplitAux_words (s : List Char) :
    ∀ cur : List Char, (∀ c ∈ cur, isSpacePy c = false) →
      ∀ w ∈ pysplitAux cur s, w ≠ [] ∧ ∀ c ∈ w, isSpacePy c = false := by
  induction s with
  | nil =>
    intro cur hcur w hw
    cases cur with
    | nil => simp [pysplitAux] at hw
    | cons a l =>
      simp [pysplitAux] at hw
      subst hw
      constructor
      · simp
      · intro c hc
        rcases List.mem_append.mp hc with h | h
        · exact hcur c (List.mem_cons_of_mem a (List.mem_reverse.mp h))
        · simp at h
          rw [h]
          exact hcur a (List.mem_cons_self a l)
  | cons c rest ih =>
    intro cur hcur w hw
    by_cases hc : isSpacePy c = true
    · rw [show pysplitAux cur (c :: rest)
          = if cur.isEmpty then pysplitAux [] rest
            else cur.reverse :: pysplitAux [] rest from by
        simp [pysplitAux, hc]] at hw
      cases cur with
      | nil =>
        simp at hw
        exact ih [] (by simp) w hw
      | cons a l =>
        simp at hw
        cases hw with
        | inl h =>
          subst h
          refine ⟨by simp, fun d hd => ?_⟩
          rcases List.mem_append.mp hd with h' | h'
          · exact hcur d (List.mem_cons_of_mem a (List.mem_reverse.mp h'))
          · simp at h'
            rw [h']
            exact hcur a (List.mem_cons_self a l)
        | inr h => exact ih [] (by simp) w h
    · rw [show pysplitAux cur (c :: rest) = pysplitAux (c :: cur) rest from by
        simp [pysplitAux, hc]] at hw
      refine ih (c :: cur) ?_ w hw
      intro d hd
      cases hd with
      | head => exact Bool.not_eq_true _ ▸ (Bool.of_not_eq_true hc)
      | tail _ h => exact hcur d h

/-- Prepending a non-whitespace character preserves `noDoubleWs`. -/
theorem noDoubleWs_cons (a : Char) (l : List Char) (ha : isSpacePy a = false)
    (hl : noDoubleWs l = true) : noDoubleWs (a :: l) = true := by
  cases l with
  | nil => rfl
  | cons b r => simp [noDoubleWs, ha, hl]

/-- Prepending a whitespace-free word preserves `noDoubleWs`. -/
theorem noDoubleWs_word (w : List Char) :
    ∀ rest : List Char, (∀ c ∈ w, isSpacePy c = false) → noDoubleWs rest = true →
      noDoubleWs (w ++ rest) = true := by
  induction w with
  | nil => intro rest _ h; simpa using h
  | cons a w' ih =>
    intro rest hw hrest
    have ha : isSpacePy a = false := hw a (List.mem_cons_self a w')
    have h' := ih rest (fun c hc => hw c (List.mem_cons_of_mem a hc)) hrest
    exact noDoubleWs_cons a (w' ++ rest) ha h'

/-- Prepending a space before a list whose head is not whitespace
preserves `noDoubleWs`. -/
theorem noDoubleWs_space_cons (l : List Char)
    (hh : ∀ c, l.head? = some c → isSpacePy c = false)
    (hl : noDoubleWs l = true) : noDoubleWs (' ' :: l) = true := by
  cases l with
  | nil => rfl
  | cons b r =>
    have hb : isSpacePy b = false := hh b rfl
    simp [noDoubleWs, hb, hl]

/-- The head of `joinSpace ws ++ [' ']` is the head of the first word
when `ws` is non-empty with non-empty whitespace-free words. -/
theorem joinSpace_head (ws : List (List Char))
    (h : ∀ w ∈ ws, w ≠ [] ∧ ∀ c ∈ w, isSpacePy c = false) (hne : ws ≠ []) :
    ∀ c, (joinSpace ws ++ [' ']).head? = some c → isSpacePy c = false := by
  cases ws with
  | nil => exact absurd rfl hne
  | cons w ws' =>
    obtain ⟨hwne, hwc⟩ := h w (List.mem_cons_self w ws')
    cases w with
    | nil => exact absurd rfl hwne
    | cons a w'' =>
      intro c hc
      cases ws' with
      | nil =>
        simp [joinSpace] at hc
        subst hc
        exact hwc a (List.mem_cons_self a w'')
      | cons v vs =>
        simp [joinSpace] at hc
        subst hc
        exact hwc a (List.mem_cons_self a w'')

/-- `joinSpace` over non-empty whitespace-free words, followed by the
single appended trailing space, contains no two adjacent whitespace
characters. -/
theorem joinSpace_noDoubleWs (ws : List (List Char))
    (h : ∀ w ∈ ws, w ≠ [] ∧ ∀ c ∈ w, isSpacePy c = false) :
    noDoubleWs (joinSpace ws ++ [' ']) = true := by
  induction ws with
  | nil => rfl
  | cons w ws' ih =>
    obtain ⟨hwne, hwc⟩ := h w (List.mem_cons_self w ws')
    have h' : ∀ v ∈ ws', v ≠ [] ∧ ∀ c ∈ v, isSpacePy c = false :=
      fun v hv => h v (List.mem_cons_of_mem w hv)
    cases ws' with
    | nil =>
      show noDoubleWs (w ++ [' ']) = true
      exact noDoubleWs_word w [' '] hwc rfl
    | cons v vs =>
      show noDoubleWs ((w ++ ' ' :: joinSpace (v :: vs)) ++ [' ']) = true
      rw [List.append_assoc]
      refine noDoubleWs_word w (' ' :: (joinSpace (v :: vs) ++ [' '])) hwc ?_
      refine noDoubleWs_space_cons _ ?_ (ih h')
      exact joinSpace_head (v :: vs) h' (by simp)

/-- C8: for every text and every iteration order of the token set,
`reinforce_text` ends with exactly one trailing space (the character
before it, when present, is not whitespace, by the absence of adjacent
whitespace pairs) and contains no run of two or more consecutive
whitespace characters anywhere. -/
theorem reinforce_text_whitespace :
    (∀ t : String, ∃ u : List Char, (reinforce_text t).data = u ++ [' ']
        ∧ noDoubleWs ((reinforce_text t).data) = true)
    ∧ (∀ (order : List (List Char)) (s : List Char), ∃ u : List Char,
        reinforceWith order s = u ++ [' ']
        ∧ noDoubleWs (reinforceWith order s) = true) := by
  have main : ∀ (order : List (List Char)) (s : List Char), ∃ u : List Char,
      reinforceWith order s = u ++ [' ']
      ∧ noDoubleWs (reinforceWith order s) = true := by
    intro order s
    refine ⟨normalizeWs (order.foldl reinforceStep s), rfl, ?_⟩
    show noDoubleWs (joinSpace (pysplit (order.foldl reinforceStep s)) ++ [' ']) = true
    exact joinSpace_noDoubleWs _
      (pysplitAux_words (order.foldl reinforceStep s) [] (by simp))
  exact ⟨fun t => main (tokenSet t.data) t.data, main⟩

/-! ## The sanitizer (C7)

`sterilize_page` delegates to `lxml.html.clean.Cleaner(style=True,
allow_tags=['a'], remove_unknown_tags=False, safe_attrs_only=True,
safe_attrs=['href'])`.  With these settings (the remaining options keep
their defaults) the cleaner
- kills — removes together with all contained text — the elements in its
  `kill_tags` collection: `script` (from `scripts`), `style` (from
  `style`), `meta` (from `meta`), `link` (from `links`), `applet` (from
  `embedded`), the `defs.frame_tags` elements `frame`, `frameset` and
  `noframes` (from `frames`) and the form controls `button`, `input`,
  `select`, `textarea` (from `forms`); killing uses lxml's `drop_tree`,
  which re-attaches the element's tail text to the surrounding text
  stream;
- drops the tag of every other non-anchor element (`drop_tag`) — the
  `embedded` option's `iframe`, `embed`, `layer`, `object` and `param`
  among them — folding its text and children into the parent at the
  position they occupied;
- keeps anchor elements, restricting their attributes to `href`;
- converts the root element, which cannot be dropped, to an
  attribute-less `div` unless it is itself an anchor.
The string parse in front and the final whitespace collapse are external
to this model; the model is at tree level. -/

/-- The tags the cleaner removes together with their contained text. -/
def killedTags : List String :=
  ["script", "style", "meta", "link", "applet", "frame", "frameset", "noframes",
   "button", "input", "select", "textarea"]

/-- A flattened piece of cleaned content: loose text or a kept element. -/
inductive SNode where
  | txt (s : String)
  | el (e : Elem)

/-- Attach loose text to a kept element as its tail. -/
def setTailS : Elem → String → Elem
  | .mk tag attrs text _ children, s => .mk tag attrs text (some s) children

/-- Regroup a flattened item list into leading text plus kept elements,
each carrying the text that follows it as its tail. -/
def reassemble : List SNode → String × List Elem
  | [] => ("", [])
  | .txt s :: rest =>
    let p := reassemble rest
    (s ++ p.1, p.2)
  | .el e :: rest =>
    let p := reassemble rest
    ("", setTailS e p.1 :: p.2)

mutual
/-- Cleaning one element into a flattened item list: killed tags leave
only their tail text, anchors are kept with filtered attributes and
cleaned content, all other tags dissolve into their text, cleaned
children and tail text. -/
def cleanElem : Elem → List SNode
  | .mk tag attrs text tail children =>
    if killedTags.contains tag then [.txt (tail.getD "")]
    else if tag = "a" then
      let p := reassemble (cleanList children)
      [.el (.mk "a" (attrs.filter (fun q => q.1 == "href"))
          (some (text.getD "" ++ p.1)) none p.2),
       .txt (tail.getD "")]
    else
      .txt (text.getD "") :: (cleanList children ++ [.txt (tail.getD "")])

/-- `cleanElem` over a child list. -/
def cleanList : List Elem → List SNode
  | [] => []
  | e :: es => cleanElem e ++ cleanList es
end

/-- `sterilize_page` at tree level: clean the root's content; the root
itself becomes an attribute-less `div` (or stays an anchor restricted to
`href` when it is one). -/
def sterilizeTree : Elem → Elem
  | .mk tag attrs text _tail children =>
    let p := reassemble (cleanList children)
    if tag = "a" then
      .mk "a" (attrs.filter (fun q => q.1 == "href")) (some (text.getD "" ++ p.1)) none p.2
    else
      .mk "div" [] (some (text.getD "" ++ p.1)) none p.2

/-- The root tag of an element. -/
def Elem.tagOf : Elem → String
  | .mk t _ _ _ _ => t

/-- The attribute list of an element. -/
def Elem.attrsOf : Elem → List (String × String)
  | .mk _ a _ _ _ => a

/-- The child list of an element. -/
def Elem.childrenOf : Elem → List Elem
  | .mk _ _ _ _ c => c

mutual
/-- Every element of the tree is an anchor carrying only `href`
attributes. -/
def onlyAnchorsE : Elem → Bool
  | .mk tag attrs _ _ children =>
    (tag == "a") && attrs.all (fun q => q.1 == "href") && onlyAnchorsL children

/-- `onlyAnchorsE` over a forest. -/
def onlyAnchorsL : List Elem → Bool
  | [] => true
  | e :: es => onlyAnchorsE e && onlyAnchorsL es
end

mutual
/-- The text content of a subtree with the contents of killed tags
scrubbed out (their tail text kept, as the cleaner keeps it). -/
def scrubTextE : Elem → List Char
  | .mk tag _ text tail children =>
    (if killedTags.contains tag then [] else (text.getD "").data ++ scrubTextL children)
      ++ (tail.getD "").data

/-- `scrubTextE` over a forest. -/
def scrubTextL : List Elem → List Char
  | [] => []
  | e :: es => scrubTextE e ++ scrubTextL es
end

/-- Concatenated text of a flattened item list. -/
def sTextItems : List SNode → List Char
  | [] => []
  | .txt s :: r => s.data ++ sTextItems r
  | .el e :: r => textContentE e ++ sTextItems r

/-- Well-formedness of a cleaned item list: every kept element is an
anchor with only `href` attributes, only anchor descendants, and no tail
yet. -/
def cleanedOk : List SNode → Bool
  | [] => true
  | .txt _ :: r => cleanedOk r
  | .el (.mk tag attrs _ tail children) :: r =>
    (tag == "a") && attrs.all (fun q => q.1 == "href") && (tail == none)
      && onlyAnchorsL children && cleanedOk r

/-- A filtered attribute list passes its own filter. -/
theorem filter_href_all (l : List (String × String)) :
    (l.filter (fun q => q.1 == "href")).all (fun q => q.1 == "href") = true := by
  rw [List.all_eq_true]
  intro x hx
  exact (List.mem_filter.mp hx).2

/-- `cleanedOk` distributes over list concatenation. -/
theorem cleanedOk_append (l1 l2 : List SNode) :
    cleanedOk (l1 ++ l2) = (cleanedOk l1 && cleanedOk l2) := by
  induction l1 with
  | nil => simp [cleanedOk]
  | cons x r ih =>
    cases x with
    | txt s => simp [cleanedOk, ih]
    | el e =>
      cases e with
      | mk tag attrs text tail children =>
        simp [cleanedOk, ih, Bool.and_assoc]

/-- `sTextItems` distributes over list concatenation. -/
theorem sTextItems_append (l1 l2 : List SNode) :
    sTextItems (l1 ++ l2) = sTextItems l1 ++ sTextItems l2 := by
  induction l1 with
  | nil => simp [sTextItems]
  | cons x r ih =>
    cases x with
    | txt s => simp [sTextItems, ih]
    | el e => simp [sTextItems, ih]

/-- Reassembling a well-formed cleaned item list yields only anchors. -/
theorem reassemble_anchors (items : List SNode) (h : cleanedOk items = true) :
    onlyAnchorsL (reassemble items).2 = true := by
  induction items with
  | nil => rfl
  | cons x r ih =>
    cases x with
    | txt s =>
      simp [cleanedOk] at h
      simp [reassemble]
      exact ih h
    | el e =>
      cases e with
      | mk tag attrs text tail children =>
        simp only [cleanedOk, Bool.and_eq_true, beq_iff_eq] at h
        obtain ⟨⟨⟨⟨htag, hattrs⟩, _⟩, hch⟩, hr⟩ := h
        simp [reassemble, onlyAnchorsL, setTailS, onlyAnchorsE, htag, hattrs, hch]
        exact ih hr

/-- The character data of the empty string. -/
theorem data_empty : ("" : String).data = [] := rfl

/-- Reassembling splits the concatenated text of a well-formed cleaned
item list into the leading text and the kept elements' contents. -/
theorem reassemble_text (items : List SNode) (h : cleanedOk items = true) :
    (reassemble items).1.data ++ textContentL (reassemble items).2 = sTextItems items := by
  induction items with
  | nil => rfl
  | cons x r ih =>
    cases x with
    | txt s =>
      simp only [cleanedOk] at h
      simp only [reassemble, sTextItems, String.data_append, List.append_assoc]
      rw [ih h]
    | el e =>
      cases e with
      | mk tag attrs text tail children =>
        simp only [cleanedOk, Bool.and_eq_true, beq_iff_eq] at h
        obtain ⟨⟨⟨⟨htag, hattrs⟩, htail⟩, hch⟩, hr⟩ := h
        subst htail
        simp only [reassemble, setTailS, sTextItems, textContentL, textContentE,
          Option.getD_some, Option.getD_none, data_empty, List.append_nil,
          List.nil_append, List.append_assoc]
        rw [ih hr]

mutual
/-- The item list produced by cleaning an element is well-formed. -/
theorem cleanElem_ok (e : Elem) : cleanedOk (cleanElem e) = true := by
  cases e with
  | mk tag attrs text tail children =>
    by_cases hk : tag ∈ killedTags
    · simp [cleanElem, hk, cleanedOk]
    · by_cases ha : tag = "a"
      · have hch := cleanList_ok children
        simp [cleanElem, hk, ha, cleanedOk, filter_href_all,
          reassemble_anchors _ hch]
      · have hch := cleanList_ok children
        simp [cleanElem, hk, ha, cleanedOk, cleanedOk_append, hch]

/-- The item list produced by cleaning a forest is well-formed. -/
theorem cleanList_ok (l : List Elem) : cleanedOk (cleanList l) = true := by
  cases l with
  | nil => rfl
  | cons e es =>
    simp [cleanList, cleanedOk_append, cleanElem_ok e, cleanList_ok es]
end

mutual
/-- The concatenated text of a cleaned element is the original text with
the killed tags' contents scrubbed out. -/
theorem cleanElem_text (e : Elem) : sTextItems (cleanElem e) = scrubTextE e := by
  cases e with
  | mk tag attrs text tail children =>
    by_cases hk : tag ∈ killedTags
    · simp [cleanElem, hk, sTextItems, scrubTextE]
    · by_cases ha : tag = "a"
      · have hok := cleanList_ok children
        have hre := reassemble_text _ hok
        rw [cleanList_text children] at hre
        simp only [cleanElem, hk, ha, sTextItems, textContentE, Option.getD_some,
          Option.getD_none, String.data_append, data_empty, List.append_nil,
          List.nil_append, scrubTextE, List.append_assoc, ite_true, ite_false,
          eq_self_iff_true, if_true, if_false]
        rw [← hre]
        simp [List.append_assoc, show ¬ (("a" : String) ∈ killedTags) from by decide]
      · simp [cleanElem, hk, ha, sTextItems, sTextItems_append,
          cleanList_text children, scrubTextE, List.append_assoc]

/-- The concatenated text of a cleaned forest. -/
theorem cleanList_text (l : List Elem) : sTextItems (cleanList l) = scrubTextL l := by
  cases l with
  | nil => rfl
  | cons e es =>
    simp [cleanList, sTextItems_append, cleanElem_text e, cleanList_text es, scrubTextL]
end

/-- C7 (amended, part 1): every element below the root of a sterilized
tree is an anchor, anchors carry only `href` attributes, and the root
itself carries no attribute unless it is an anchor restricted to `href`;
the root tag is `div` or (for an anchor root) `a`. -/
theorem sterilize_only_anchors (tag : String) (attrs : List (String × String))
    (text tail : Option String) (children : List Elem) :
    onlyAnchorsL ((sterilizeTree (.mk tag attrs text tail children)).childrenOf) = true
    ∧ ((sterilizeTree (.mk tag attrs text tail children)).attrsOf).all
        (fun q => q.1 == "href") = true
    ∧ ((sterilizeTree (.mk tag attrs text tail children)).tagOf = "div"
        ∨ (sterilizeTree (.mk tag attrs text tail children)).tagOf = "a") := by
  have hok := cleanList_ok children
  by_cases ha : tag = "a"
  · refine ⟨?_, ?_, Or.inr ?_⟩
    · simp [sterilizeTree, ha, Elem.childrenOf, reassemble_anchors _ hok]
    · simp [sterilizeTree, ha, Elem.attrsOf, filter_href_all]
    · simp [sterilizeTree, ha, Elem.tagOf]
  · refine ⟨?_, ?_, Or.inl ?_⟩
    · simp [sterilizeTree, ha, Elem.childrenOf, reassemble_anchors _ hok]
    · simp [sterilizeTree, ha, Elem.attrsOf]
    · simp [sterilizeTree, ha, Elem.tagOf]

/-- C7 (amended, part 2): the text content of a sterilized tree is the
root's direct text followed by the original text content with exactly the
killed tags' contents removed; in particular all text outside the kill
set survives at the position it occupied. -/
theorem sterilize_text_content (tag : String) (attrs : List (String × String))
    (text tail : Option String) (children : List Elem) :
    textContentE (sterilizeTree (.mk tag attrs text tail children))
      = (text.getD "").data ++ scrubTextL children := by
  have hok := cleanList_ok children
  have hre := reassemble_text _ hok
  rw [cleanList_text children] at hre
  by_cases ha : tag = "a"
  · simp only [sterilizeTree, ha, eq_self_iff_true, ite_true, textContentE,
      Option.getD_some, Option.getD_none, String.data_append, data_empty,
      List.append_nil, List.append_assoc]
    rw [← hre]
  · simp only [sterilizeTree, ha, Bool.false_eq_true, ite_false, textContentE,
      Option.getD_some, Option.getD_none, String.data_append, data_empty,
      List.append_nil, List.append_assoc]
    rw [← hre]

/-- C7 (amended): in a sterilized tree only anchor elements survive below
the root, every surviving attribute (on the root and on anchors alike) is
an `href`, the root is a `div` or — only when the input root was itself an
anchor — an `a`, and the text content of the result is the root's direct
text followed by the original text content with exactly the contents of
the killed tags (`script`, `style`, and also the cleaner's other kill-set
tags: `meta`, `link`, `applet`, the frame tags `frame`, `frameset`,
`noframes` and the form controls `button`, `input`, `select`,
`textarea`) removed; all other text is kept at the position it
occupied. -/
theorem sterilize_shape_and_text (tag : String) (attrs : List (String × String))
    (text tail : Option String) (children : List Elem) :
    onlyAnchorsL ((sterilizeTree (.mk tag attrs text tail children)).childrenOf) = true
    ∧ ((sterilizeTree (.mk tag attrs text tail children)).attrsOf).all
        (fun q => q.1 == "href") = true
    ∧ ((sterilizeTree (.mk tag attrs text tail children)).tagOf = "div"
        ∨ (sterilizeTree (.mk tag attrs text tail children)).tagOf = "a")
    ∧ textContentE (sterilizeTree (.mk tag attrs text tail children))
        = (text.getD "").data ++ scrubTextL children :=
  ⟨(sterilize_only_anchors tag attrs text tail children).1,
   (sterilize_only_anchors tag attrs text tail children).2.1,
   (sterilize_only_anchors tag attrs text tail children).2.2,
   sterilize_text_content tag attrs text tail children⟩

/-- C7 (counterexample): `button` is a form-control tag that the cleaner
kills together with its text content although it is neither `script` nor
`style`; its text does not survive sterilization. -/
theorem sterilize_drops_button_text_cex :
    sterilizeTree
        (.mk "div" [] (some "push ") none
          [.mk "button" [] (some "Click me") (some " end") []])
      = .mk "div" [] (some "push  end") none []
    ∧ textContentE
        (.mk "div" [] (some "push ") none
          [.mk "button" [] (some "Click me") (some " end") []])
        = ("push Click me end").data
    ∧ textContentE
        (sterilizeTree
          (.mk "div" [] (some "push ") none
            [.mk "button" [] (some "Click me") (some " end") []]))
        = ("push  end").data
    ∧ ("push  end").data ≠ ("push Click me end").data
    ∧ ("button" : String) ≠ "script" ∧ ("button" : String) ≠ "style" :=
  ⟨rfl, rfl, rfl, by decide, by decide, by decide⟩

end Pageparser
